import Mathlib

/-!
Verification of the Bitcoin transaction wire codec (`src/lib.rs`).

The Rust source is embedded shallowly: byte buffers are `List Nat` (each
entry a `u8` value), machine integers are `Nat` together with explicit
well-formedness bounds, and every fallible decoder returns
`Except Fault (α × Nat)` where the `Nat` is the consumed-byte count.
`Fault` separates the two returned `BitcoinError` kinds from a Rust panic
(out-of-range slice or arithmetic overflow), which the source can actually
hit in `TransactionInput::from_bytes` and `Script::from_bytes`.
-/

set_option maxHeartbeats 1000000

namespace BtcCodec

/-- Little-endian decomposition into `k` base-256 digits, least significant
first; models Rust's `to_le_bytes` (its `k`-byte prefix). -/
def leBytes : Nat → Nat → List Nat
  | 0, _ => []
  | k + 1, n => n % 256 :: leBytes k (n / 256)

/-- Little-endian recomposition of a digit list; models `from_le_bytes`. -/
def leDecode (bs : List Nat) : Nat :=
  bs.foldr (fun b acc => b + 256 * acc) 0

/-- The error enum `BitcoinError` of the source. -/
inductive BitcoinError where
  | InsufficientBytes
  | InvalidFormat
  deriving DecidableEq

/-- Outcome classification for a decoder call: either a `BitcoinError`
value returned through `Result`, or a Rust panic (an out-of-range slice
index or an arithmetic overflow), which returns nothing. -/
inductive Fault where
  | err : BitcoinError → Fault
  | outOfBounds : Fault
  deriving DecidableEq

instance {ε α : Type} [DecidableEq ε] [DecidableEq α] :
    DecidableEq (Except ε α) := fun x y =>
  match x, y with
  | .error e, .error e' =>
    match decEq e e' with
    | .isTrue h => .isTrue (h ▸ rfl)
    | .isFalse h => .isFalse (fun hh => h (Except.error.inj hh))
  | .error _, .ok _ => .isFalse (fun hh => Except.noConfusion hh)
  | .ok _, .error _ => .isFalse (fun hh => Except.noConfusion hh)
  | .ok a, .ok a' =>
    match decEq a a' with
    | .isTrue h => .isTrue (h ▸ rfl)
    | .isFalse h => .isFalse (fun hh => h (Except.ok.inj hh))

/-- The struct `CompactSize { value: u64 }`. -/
structure CompactSize where
  value : Nat
  deriving DecidableEq

def CompactSize.new (value : Nat) : CompactSize := ⟨value⟩

/-- `CompactSize::to_bytes`: minimal self-describing varint encoding. -/
def CompactSize.toBytes (c : CompactSize) : List Nat :=
  if c.value ≤ 0xFC then [c.value]
  else if c.value ≤ 0xFFFF then 0xFD :: (leBytes 8 c.value).take 2
  else if c.value ≤ 0xFFFFFFFF then 0xFE :: (leBytes 8 c.value).take 4
  else 0xFF :: leBytes 8 c.value

/-- `CompactSize::from_bytes`: the first byte selects the width; the source's
`bytes.len() < 1 + width` checks appear here as list patterns.  A first byte
in `0x00..=0xFC` is its own value; `0xFD`, `0xFE`, `0xFF` announce 2, 4 and 8
little-endian value bytes respectively. -/
def CompactSize.fromBytes : List Nat → Except Fault (CompactSize × Nat)
  | [] => .error (.err .InsufficientBytes)
  | b0 :: rest =>
    if b0 ≤ 0xFC then .ok (CompactSize.new b0, 1)
    else if b0 = 0xFD then
      match rest with
      | b1 :: b2 :: _ => .ok (CompactSize.new (leDecode [b1, b2]), 3)
      | _ => .error (.err .InsufficientBytes)
    else if b0 = 0xFE then
      match rest with
      | b1 :: b2 :: b3 :: b4 :: _ =>
          .ok (CompactSize.new (leDecode [b1, b2, b3, b4]), 5)
      | _ => .error (.err .InsufficientBytes)
    else
      match rest with
      | b1 :: b2 :: b3 :: b4 :: b5 :: b6 :: b7 :: b8 :: _ =>
          .ok (CompactSize.new (leDecode [b1, b2, b3, b4, b5, b6, b7, b8]), 9)
      | _ => .error (.err .InsufficientBytes)

/-- The newtype `Txid(pub [u8; 32])`. -/
structure Txid where
  bytes : List Nat
  deriving DecidableEq

/-- Invariant carried by the Rust type `[u8; 32]`. -/
def Txid.WF (t : Txid) : Prop :=
  t.bytes.length = 32 ∧ ∀ b ∈ t.bytes, b < 256

instance (t : Txid) : Decidable t.WF :=
  inferInstanceAs (Decidable (t.bytes.length = 32 ∧ ∀ b ∈ t.bytes, b < 256))

/-- The struct `OutPoint { txid: Txid, vout: u32 }`. -/
structure OutPoint where
  txid : Txid
  vout : Nat
  deriving DecidableEq

def OutPoint.WF (o : OutPoint) : Prop :=
  o.txid.WF ∧ o.vout < 2 ^ 32

instance (o : OutPoint) : Decidable o.WF :=
  inferInstanceAs (Decidable (o.txid.WF ∧ o.vout < 2 ^ 32))

/-- `OutPoint::to_bytes`: 32 txid bytes then the vout as 4 LE bytes. -/
def OutPoint.toBytes (o : OutPoint) : List Nat :=
  o.txid.bytes ++ leBytes 4 o.vout

/-- `OutPoint::from_bytes`: requires 36 bytes, splits at byte 32. -/
def OutPoint.fromBytes (bytes : List Nat) : Except Fault (OutPoint × Nat) :=
  if bytes.length < 36 then .error (.err .InsufficientBytes)
  else .ok (⟨⟨bytes.take 32⟩, leDecode ((bytes.drop 32).take 4)⟩, 36)

/-- The struct `Script { bytes: Vec<u8> }`. -/
structure Script where
  bytes : List Nat
  deriving DecidableEq

def Script.new (bytes : List Nat) : Script := ⟨bytes⟩

/-- Invariant of a Rust `Vec<u8>`: its length never exceeds `isize::MAX`. -/
def Script.WF (s : Script) : Prop := s.bytes.length < 2 ^ 63

instance (s : Script) : Decidable s.WF :=
  inferInstanceAs (Decidable (s.bytes.length < 2 ^ 63))

/-- `Script::to_bytes`: CompactSize-encoded length then the raw payload. -/
def Script.toBytes (s : Script) : List Nat :=
  (CompactSize.new s.bytes.length).toBytes ++ s.bytes

/-- `Script::from_bytes`.  The source computes
`consumed + length.value as usize`; when the declared length is within 8 of
`u64::MAX` that addition overflows `usize` and the call panics (debug: the
addition itself; release: the wrapped bound makes the payload slice
reversed), modelled by the guard returning `Fault.outOfBounds`. -/
def Script.fromBytes (bytes : List Nat) : Except Fault (Script × Nat) := do
  let (length, consumed) ← CompactSize.fromBytes bytes
  if 2 ^ 64 ≤ consumed + length.value then
    .error .outOfBounds
  else if bytes.length < consumed + length.value then
    .error (.err .InsufficientBytes)
  else
    .ok (Script.new ((bytes.drop consumed).take length.value),
         consumed + length.value)

/-- The struct `TransactionInput`. -/
structure TransactionInput where
  previous_output : OutPoint
  script_sig : Script
  sequence : Nat
  deriving DecidableEq

def TransactionInput.new (previous_output : OutPoint) (script_sig : Script)
    (sequence : Nat) : TransactionInput :=
  ⟨previous_output, script_sig, sequence⟩

def TransactionInput.WF (t : TransactionInput) : Prop :=
  t.previous_output.WF ∧ t.script_sig.WF ∧ t.sequence < 2 ^ 32

instance (t : TransactionInput) : Decidable t.WF :=
  inferInstanceAs
    (Decidable (t.previous_output.WF ∧ t.script_sig.WF ∧ t.sequence < 2 ^ 32))

/-- `TransactionInput::to_bytes`: outpoint, script, 4 LE sequence bytes. -/
def TransactionInput.toBytes (t : TransactionInput) : List Nat :=
  t.previous_output.toBytes ++ t.script_sig.toBytes ++ leBytes 4 t.sequence

/-- `TransactionInput::from_bytes`.  The source reads the sequence with
`bytes[consumed + consumed_script..consumed + consumed_script + 4]` and no
preceding length check, so a buffer ending inside those 4 bytes makes the
slice panic; the guard records that as `Fault.outOfBounds`. -/
def TransactionInput.fromBytes (bytes : List Nat) :
    Except Fault (TransactionInput × Nat) := do
  let (previous_output, consumed) ← OutPoint.fromBytes bytes
  let (script_sig, consumed_script) ← Script.fromBytes (bytes.drop consumed)
  if bytes.length < consumed + consumed_script + 4 then
    .error .outOfBounds
  else
    .ok (TransactionInput.new previous_output script_sig
           (leDecode ((bytes.drop (consumed + consumed_script)).take 4)),
         consumed + consumed_script + 4)

/-- The struct `BitcoinTransaction`. -/
structure BitcoinTransaction where
  version : Nat
  inputs : List TransactionInput
  lock_time : Nat
  deriving DecidableEq

def BitcoinTransaction.new (version : Nat) (inputs : List TransactionInput)
    (lock_time : Nat) : BitcoinTransaction :=
  ⟨version, inputs, lock_time⟩

def BitcoinTransaction.WF (tx : BitcoinTransaction) : Prop :=
  tx.version < 2 ^ 32 ∧ tx.inputs.length < 2 ^ 64 ∧
    (∀ i ∈ tx.inputs, i.WF) ∧ tx.lock_time < 2 ^ 32

instance (tx : BitcoinTransaction) : Decidable tx.WF :=
  inferInstanceAs (Decidable (tx.version < 2 ^ 32 ∧ tx.inputs.length < 2 ^ 64 ∧
    (∀ i ∈ tx.inputs, i.WF) ∧ tx.lock_time < 2 ^ 32))

/-- `BitcoinTransaction::to_bytes`: version, input count, inputs, lock time. -/
def BitcoinTransaction.toBytes (tx : BitcoinTransaction) : List Nat :=
  leBytes 4 tx.version
    ++ (CompactSize.new tx.inputs.length).toBytes
    ++ (tx.inputs.map TransactionInput.toBytes).flatten
    ++ leBytes 4 tx.lock_time

/-- The `for _ in 0..input_count.value` loop of the source: each round calls
`TransactionInput::from_bytes(&bytes[total_consumed..])`, pushes the input,
and advances `total_consumed` by that input's consumed count. -/
def BitcoinTransaction.decodeInputs (bytes : List Nat) :
    Nat → Nat → Except Fault (List TransactionInput × Nat)
  | 0, total_consumed => .ok ([], total_consumed)
  | n + 1, total_consumed => do
    let (input, consumed_input) ←
      TransactionInput.fromBytes (bytes.drop total_consumed)
    let (rest, total) ←
      BitcoinTransaction.decodeInputs bytes n (total_consumed + consumed_input)
    .ok (input :: rest, total)

/-- `BitcoinTransaction::from_bytes`: an up-front `≥ 8 bytes` floor, the
version, the input count, the input loop, then a 4-byte lock-time check. -/
def BitcoinTransaction.fromBytes (bytes : List Nat) :
    Except Fault (BitcoinTransaction × Nat) := do
  if bytes.length < 8 then
    .error (.err .InsufficientBytes)
  else
    let version := leDecode (bytes.take 4)
    let (input_count, consumed) ← CompactSize.fromBytes (bytes.drop 4)
    let (inputs, total_consumed) ←
      BitcoinTransaction.decodeInputs bytes input_count.value (consumed + 4)
    if bytes.length < total_consumed + 4 then
      .error (.err .InsufficientBytes)
    else
      .ok (BitcoinTransaction.new version inputs
             (leDecode ((bytes.drop total_consumed).take 4)),
           total_consumed + 4)

/-- Width of the little-endian value field selected by the first byte of a
CompactSize encoding, as the specification describes it. -/
def csWidth (b0 : Nat) : Nat :=
  if b0 ≤ 0xFC then 0
  else if b0 = 0xFD then 2
  else if b0 = 0xFE then 4
  else 8

/-- Specification-style input-sequence decoder: decodes `n` transaction
inputs from the front of a buffer, handing each recursive call only the
not-yet-consumed suffix and returning the summed consumed count.  Written
from the specification's wording for comparison with the source's
offset-threading loop `BitcoinTransaction.decodeInputs`. -/
def decodeInputsList : Nat → List Nat → Except Fault (List TransactionInput × Nat)
  | 0, _ => .ok ([], 0)
  | n + 1, bs => do
    let (input, c) ← TransactionInput.fromBytes bs
    let (rest, c') ← decodeInputsList n (bs.drop c)
    .ok (input :: rest, c + c')

/-- Specification-style restatement of `BitcoinTransaction::from_bytes`:
an 8-byte floor, the 4-byte little-endian version at offset 0, a CompactSize
input count at offset 4, exactly `input_count.value` sequentially decoded
inputs, a 4-byte remainder check, and the little-endian lock time. -/
def BitcoinTransaction.fromBytesSpec (bytes : List Nat) :
    Except Fault (BitcoinTransaction × Nat) :=
  if bytes.length < 8 then .error (.err .InsufficientBytes)
  else do
    let (input_count, c) ← CompactSize.fromBytes (bytes.drop 4)
    let (inputs, cIns) ← decodeInputsList input_count.value (bytes.drop (4 + c))
    if bytes.length < 4 + c + cIns + 4 then .error (.err .InsufficientBytes)
    else
      .ok (⟨leDecode (bytes.take 4), inputs,
            leDecode ((bytes.drop (4 + c + cIns)).take 4)⟩,
           4 + c + cIns + 4)

/-- A transaction input used as concrete test data: all-zero txid, vout 0,
empty script, sequence `0xFFFFFFFF`; its encoding is 41 bytes long. -/
def sampleInput : TransactionInput :=
  ⟨⟨⟨List.replicate 32 0⟩, 0⟩, ⟨[]⟩, 0xFFFFFFFF⟩

/-- The encoding of `sampleInput` truncated by one byte, cutting into the
4-byte sequence field. -/
def truncatedInputBytes : List Nat :=
  sampleInput.toBytes.take 40

/-- A transaction buffer whose single declared input is truncated inside its
sequence field: version 1, input count 1, then `truncatedInputBytes`. -/
def truncatedTxBytes : List Nat :=
  leBytes 4 1 ++ [1] ++ truncatedInputBytes

/-- Lowercase hexadecimal digit character for a value below 16; models the
digit table of the `hex` crate used by the `Txid` serde impls. -/
def hexDigit (n : Nat) : Char :=
  if n < 10 then Char.ofNat (48 + n) else Char.ofNat (87 + n)

/-- Character list produced by `hex::encode`: two lowercase digits per byte,
high nibble first. -/
def hexEncodeChars : List Nat → List Char
  | [] => []
  | b :: rest => hexDigit (b / 16) :: hexDigit (b % 16) :: hexEncodeChars rest

/-- `hex::encode` as a string. -/
def hexEncode (bs : List Nat) : String :=
  String.mk (hexEncodeChars bs)

/-- Value of one hexadecimal digit character as accepted by `hex::decode`
(digits, lowercase and uppercase letters). -/
def hexDigitVal (c : Char) : Option Nat :=
  if 48 ≤ c.toNat ∧ c.toNat ≤ 57 then some (c.toNat - 48)
  else if 97 ≤ c.toNat ∧ c.toNat ≤ 102 then some (c.toNat - 87)
  else if 65 ≤ c.toNat ∧ c.toNat ≤ 70 then some (c.toNat - 55)
  else none

/-- `hex::decode` on the character list: consumes digit pairs, fails on an
odd-length input or a non-digit character. -/
def hexDecodeChars : List Char → Option (List Nat)
  | [] => some []
  | [_] => none
  | c1 :: c2 :: rest => do
    let hi ← hexDigitVal c1
    let lo ← hexDigitVal c2
    let tail ← hexDecodeChars rest
    some ((16 * hi + lo) :: tail)

/-- `hex::decode` on a string. -/
def hexDecode (s : String) : Option (List Nat) :=
  hexDecodeChars s.data

/-- Whether a character is a lowercase hexadecimal digit (`0`-`9`, `a`-`f`). -/
def isLowerHexDigit (c : Char) : Bool :=
  (48 ≤ c.toNat && c.toNat ≤ 57) || (97 ≤ c.toNat && c.toNat ≤ 102)

/-- Failure cases of the `Deserialize for Txid` impl: a hex-decode error
forwarded via `serde::de::Error::custom`, or the explicit
`"Invalid length for Txid"` rejection. -/
inductive TxidDeError where
  | invalidHex
  | invalidLength
  deriving DecidableEq

/-- `Serialize for Txid`: the 32 bytes rendered as a lowercase hex string. -/
def Txid.serializeHex (t : Txid) : String :=
  hexEncode t.bytes

/-- `Deserialize for Txid`: hex-decode the string, then require exactly 32
decoded bytes. -/
def Txid.deserializeHex (s : String) : Except TxidDeError Txid :=
  match hexDecode s with
  | none => .error .invalidHex
  | some bs =>
    if bs.length ≠ 32 then .error .invalidLength
    else .ok ⟨bs⟩

theorem leBytes_length (k n : Nat) : (leBytes k n).length = k := by
  induction k generalizing n with
  | zero => rfl
  | succ k ih => simp [leBytes, ih]

theorem leBytes_take {j k : Nat} (n : Nat) (h : j ≤ k) :
    (leBytes k n).take j = leBytes j n := by
  induction j generalizing k n with
  | zero => rfl
  | succ j ih =>
    match k with
    | k + 1 => simp [leBytes, ih (n / 256) (Nat.succ_le_succ_iff.mp h)]

theorem leDecode_leBytes (k n : Nat) : leDecode (leBytes k n) = n % 256 ^ k := by
  induction k generalizing n with
  | zero => simp [leBytes, leDecode, Nat.mod_one]
  | succ k ih =>
    have h1 : leDecode (leBytes (k + 1) n) =
        n % 256 + 256 * leDecode (leBytes k (n / 256)) := by
      simp [leBytes, leDecode]
    rw [h1, ih, pow_succ', Nat.mod_mul]

theorem cs_toBytes_case1 {v : Nat} (h : v ≤ 0xFC) :
    (CompactSize.mk v).toBytes = [v] := by
  simp [CompactSize.toBytes, h]

theorem cs_toBytes_case2 {v : Nat} (h1 : 0xFD ≤ v) (h2 : v ≤ 0xFFFF) :
    (CompactSize.mk v).toBytes = [0xFD, v % 256, v / 256 % 256] := by
  rw [CompactSize.toBytes, if_neg (show ¬ v ≤ 0xFC by omega),
    if_pos (show v ≤ 0xFFFF from h2)]
  rfl

theorem cs_toBytes_case3 {v : Nat} (h1 : 0x10000 ≤ v) (h2 : v ≤ 0xFFFFFFFF) :
    (CompactSize.mk v).toBytes =
      [0xFE, v % 256, v / 256 % 256, v / 65536 % 256, v / 16777216 % 256] := by
  rw [CompactSize.toBytes, if_neg (show ¬ v ≤ 0xFC by omega),
    if_neg (show ¬ v ≤ 0xFFFF by omega),
    if_pos (show v ≤ 0xFFFFFFFF from h2)]
  show 0xFE :: (leBytes 8 v).take 4 = _
  norm_num [leBytes, Nat.div_div_eq_div_mul]

theorem cs_toBytes_case4 {v : Nat} (h1 : 0x100000000 ≤ v) :
    (CompactSize.mk v).toBytes =
      [0xFF, v % 256, v / 256 % 256, v / 65536 % 256, v / 16777216 % 256,
        v / 4294967296 % 256, v / 1099511627776 % 256,
        v / 281474976710656 % 256, v / 72057594037927936 % 256] := by
  rw [CompactSize.toBytes, if_neg (show ¬ v ≤ 0xFC by omega),
    if_neg (show ¬ v ≤ 0xFFFF by omega),
    if_neg (show ¬ v ≤ 0xFFFFFFFF by omega)]
  show 0xFF :: leBytes 8 v = _
  norm_num [leBytes, Nat.div_div_eq_div_mul]

theorem cs_fromBytes_append (c : CompactSize) (h : c.value < 2 ^ 64)
    (rest : List Nat) :
    CompactSize.fromBytes (c.toBytes ++ rest) = .ok (c, c.toBytes.length) := by
  obtain ⟨v⟩ := c
  replace h : v < 2 ^ 64 := h
  rcases Nat.lt_or_ge v 0xFD with h1 | h1
  · rw [cs_toBytes_case1 (v := v) (by omega)]
    simp [CompactSize.fromBytes, CompactSize.new]
    omega
  · rcases Nat.lt_or_ge v 0x10000 with h2 | h2
    · rw [cs_toBytes_case2 (v := v) h1 (by omega)]
      simp [CompactSize.fromBytes, CompactSize.new, leDecode]
      omega
    · rcases Nat.lt_or_ge v 0x100000000 with h3 | h3
      · rw [cs_toBytes_case3 (v := v) h2 (by omega)]
        simp [CompactSize.fromBytes, CompactSize.new, leDecode]
        omega
      · rw [cs_toBytes_case4 (v := v) h3]
        simp [CompactSize.fromBytes, CompactSize.new, leDecode]
        omega

theorem cs_fromBytes_ext {bs : List Nat} {c : CompactSize} {n : Nat}
    (h : CompactSize.fromBytes bs = .ok (c, n)) :
    n ≤ bs.length ∧
      ∀ ys, CompactSize.fromBytes (bs.take n ++ ys) = .ok (c, n) := by
  match bs with
  | [] => simp [CompactSize.fromBytes] at h
  | b0 :: rest =>
    by_cases h1 : b0 ≤ 0xFC
    · simp [CompactSize.fromBytes, h1] at h
      obtain ⟨hc, hn⟩ := h
      subst hc; subst hn
      refine ⟨by simp, fun ys => ?_⟩
      simp [CompactSize.fromBytes, h1]
    · by_cases h2 : b0 = 0xFD
      · match rest with
        | [] => simp [CompactSize.fromBytes, h1, h2] at h
        | [_] => simp [CompactSize.fromBytes, h1, h2] at h
        | b1 :: b2 :: r =>
          simp [CompactSize.fromBytes, h1, h2] at h
          obtain ⟨hc, hn⟩ := h
          subst hc; subst hn
          refine ⟨by simp, fun ys => ?_⟩
          simp [CompactSize.fromBytes, h1, h2]
      · by_cases h3 : b0 = 0xFE
        · match rest with
          | [] => simp [CompactSize.fromBytes, h1, h2, h3] at h
          | [_] => simp [CompactSize.fromBytes, h1, h2, h3] at h
          | [_, _] => simp [CompactSize.fromBytes, h1, h2, h3] at h
          | [_, _, _] => simp [CompactSize.fromBytes, h1, h2, h3] at h
          | b1 :: b2 :: b3 :: b4 :: r =>
            simp [CompactSize.fromBytes, h1, h2, h3] at h
            obtain ⟨hc, hn⟩ := h
            subst hc; subst hn
            refine ⟨by simp, fun ys => ?_⟩
            simp [CompactSize.fromBytes, h1, h2, h3]
        · match rest with
          | [] => simp [CompactSize.fromBytes, h1, h2, h3] at h
          | [_] => simp [CompactSize.fromBytes, h1, h2, h3] at h
          | [_, _] => simp [CompactSize.fromBytes, h1, h2, h3] at h
          | [_, _, _] => simp [CompactSize.fromBytes, h1, h2, h3] at h
          | [_, _, _, _] => simp [CompactSize.fromBytes, h1, h2, h3] at h
          | [_, _, _, _, _] => simp [CompactSize.fromBytes, h1, h2, h3] at h
          | [_, _, _, _, _, _] => simp [CompactSize.fromBytes, h1, h2, h3] at h
          | [_, _, _, _, _, _, _] => simp [CompactSize.fromBytes, h1, h2, h3] at h
          | b1 :: b2 :: b3 :: b4 :: b5 :: b6 :: b7 :: b8 :: r =>
            simp [CompactSize.fromBytes, h1, h2, h3] at h
            obtain ⟨hc, hn⟩ := h
            subst hc; subst hn
            refine ⟨by simp, fun ys => ?_⟩
            simp [CompactSize.fromBytes, h1, h2, h3]

theorem cs_consumed_cases {bs : List Nat} {c : CompactSize} {n : Nat}
    (h : CompactSize.fromBytes bs = .ok (c, n)) :
    n = 1 ∨ n = 3 ∨ n = 5 ∨ n = 9 := by
  match bs with
  | [] => simp [CompactSize.fromBytes] at h
  | b0 :: rest =>
    by_cases h1 : b0 ≤ 0xFC
    · simp [CompactSize.fromBytes, h1] at h
      omega
    · by_cases h2 : b0 = 0xFD
      · match rest with
        | [] => simp [CompactSize.fromBytes, h1, h2] at h
        | [_] => simp [CompactSize.fromBytes, h1, h2] at h
        | _ :: _ :: _ =>
          simp [CompactSize.fromBytes, h1, h2] at h
          omega
      · by_cases h3 : b0 = 0xFE
        · match rest with
          | [] => simp [CompactSize.fromBytes, h1, h2, h3] at h
          | [_] => simp [CompactSize.fromBytes, h1, h2, h3] at h
          | [_, _] => simp [CompactSize.fromBytes, h1, h2, h3] at h
          | [_, _, _] => simp [CompactSize.fromBytes, h1, h2, h3] at h
          | _ :: _ :: _ :: _ :: _ =>
            simp [CompactSize.fromBytes, h1, h2, h3] at h
            omega
        · match rest with
          | [] => simp [CompactSize.fromBytes, h1, h2, h3] at h
          | [_] => simp [CompactSize.fromBytes, h1, h2, h3] at h
          | [_, _] => simp [CompactSize.fromBytes, h1, h2, h3] at h
          | [_, _, _] => simp [CompactSize.fromBytes, h1, h2, h3] at h
          | [_, _, _, _] => simp [CompactSize.fromBytes, h1, h2, h3] at h
          | [_, _, _, _, _] => simp [CompactSize.fromBytes, h1, h2, h3] at h
          | [_, _, _, _, _, _] => simp [CompactSize.fromBytes, h1, h2, h3] at h
          | [_, _, _, _, _, _, _] => simp [CompactSize.fromBytes, h1, h2, h3] at h
          | _ :: _ :: _ :: _ :: _ :: _ :: _ :: _ :: _ =>
            simp [CompactSize.fromBytes, h1, h2, h3] at h
            omega

theorem except_bind_ok {ε α β : Type} (a : α) (f : α → Except ε β) :
    (Except.ok a : Except ε α) >>= f = f a := rfl

theorem except_bind_error {ε α β : Type} (e : ε) (f : α → Except ε β) :
    (Except.error e : Except ε α) >>= f = .error e := rfl

theorem take_split {α : Type} (l : List α) {m n : Nat} (h : m ≤ n) :
    l.take n = l.take m ++ (l.drop m).take (n - m) := by
  rw [show n = m + (n - m) from (Nat.add_sub_cancel' h).symm, List.take_add]
  simp [Nat.add_sub_cancel' h]

theorem take_window {α : Type} (l ys : List α) {m n : Nat} (hmn : m ≤ n)
    (hn : n ≤ l.length) :
    (l.take n ++ ys).take m = l.take m := by
  rw [take_split l hmn, List.append_assoc, List.take_left' (by simp; omega)]

theorem drop_window {α : Type} (l ys : List α) {m n : Nat} (hmn : m ≤ n)
    (hn : n ≤ l.length) :
    (l.take n ++ ys).drop m = (l.drop m).take (n - m) ++ ys := by
  rw [take_split l hmn, List.append_assoc, List.drop_left' (by simp; omega)]

theorem cs_toBytes_length_cases (c : CompactSize) :
    c.toBytes.length = 1 ∨ c.toBytes.length = 3 ∨
      c.toBytes.length = 5 ∨ c.toBytes.length = 9 := by
  unfold CompactSize.toBytes
  split_ifs <;> simp [List.length_take, leBytes_length]

theorem op_toBytes_length {o : OutPoint} (h32 : o.txid.bytes.length = 32) :
    o.toBytes.length = 36 := by
  simp [OutPoint.toBytes, leBytes_length, h32]

theorem op_fromBytes_append (o : OutPoint) (h : o.WF) (rest : List Nat) :
    OutPoint.fromBytes (o.toBytes ++ rest) = .ok (o, 36) := by
  obtain ⟨⟨h32, hb⟩, hv⟩ := h
  have hle : leDecode (leBytes 4 o.vout) = o.vout := by
    rw [leDecode_leBytes]
    exact Nat.mod_eq_of_lt (by norm_num at hv ⊢; omega)
  rw [OutPoint.toBytes, OutPoint.fromBytes, List.append_assoc,
    if_neg (by simp [h32, leBytes_length]; omega),
    List.take_left' h32, List.drop_left' h32,
    List.take_left' (leBytes_length 4 o.vout), hle]

theorem op_fromBytes_ext {bs : List Nat} {x : OutPoint} {n : Nat}
    (h : OutPoint.fromBytes bs = .ok (x, n)) :
    n ≤ bs.length ∧ ∀ ys, OutPoint.fromBytes (bs.take n ++ ys) = .ok (x, n) := by
  rw [OutPoint.fromBytes] at h
  by_cases hl : bs.length < 36
  · simp [hl] at h
  · simp only [hl, if_false] at h
    obtain ⟨hx, hn⟩ := Prod.mk.injEq .. ▸ Except.ok.inj h
    subst hn
    refine ⟨by omega, fun ys => ?_⟩
    rw [OutPoint.fromBytes, if_neg (by simp; omega)]
    rw [take_window bs ys (by omega) (by omega),
      drop_window bs ys (by omega) (by omega),
      List.take_append_of_le_length (by simp [List.length_take]; omega),
      List.take_take]
    simpa using hx ▸ rfl

theorem script_fromBytes_append (s : Script) (h : s.WF) (rest : List Nat) :
    Script.fromBytes (s.toBytes ++ rest) = .ok (s, s.toBytes.length) := by
  obtain ⟨sb⟩ := s
  replace h : sb.length < 2 ^ 63 := h
  have hcs := cs_fromBytes_append (CompactSize.new sb.length)
    (by simp [CompactSize.new]; omega) (sb ++ rest)
  have hlen9 := cs_toBytes_length_cases (CompactSize.new sb.length)
  rw [Script.toBytes, List.append_assoc]
  simp only [CompactSize.new] at hcs hlen9 ⊢
  simp only [Script.fromBytes, hcs, except_bind_ok]
  rw [if_neg (by omega),
    if_neg (by simp only [List.length_append]; omega),
    List.drop_left' rfl, List.take_left' rfl]
  simp [Script.new, List.length_append]

theorem script_fromBytes_ext {bs : List Nat} {x : Script} {n : Nat}
    (h : Script.fromBytes bs = .ok (x, n)) :
    n ≤ bs.length ∧ ∀ ys, Script.fromBytes (bs.take n ++ ys) = .ok (x, n) := by
  cases hcs : CompactSize.fromBytes bs with
  | error e =>
    rw [Script.fromBytes, hcs, except_bind_error] at h
    exact Except.noConfusion h
  | ok p =>
    obtain ⟨c, cn⟩ := p
    obtain ⟨hcn, hext⟩ := cs_fromBytes_ext hcs
    simp only [Script.fromBytes, hcs, except_bind_ok] at h
    by_cases hov : 2 ^ 64 ≤ cn + c.value
    · rw [if_pos hov] at h
      exact Except.noConfusion h
    · by_cases hlen : bs.length < cn + c.value
      · rw [if_neg hov, if_pos hlen] at h
        exact Except.noConfusion h
      · rw [if_neg hov, if_neg hlen] at h
        have h' := Except.ok.inj h
        rw [Prod.mk.injEq] at h'
        obtain ⟨hx, hn⟩ := h'
        subst hn
        refine ⟨by omega, fun ys => ?_⟩
        have hcs2 : CompactSize.fromBytes (bs.take (cn + c.value) ++ ys) =
            .ok (c, cn) := by
          rw [take_split bs (show cn ≤ cn + c.value by omega), List.append_assoc]
          exact hext _
        simp only [Script.fromBytes, hcs2, except_bind_ok]
        rw [if_neg hov, if_neg (by simp only [List.length_append]; simp; omega)]
        rw [drop_window bs ys (by omega) (by omega)]
        rw [List.take_append_of_le_length (by simp [List.length_take]; omega),
          List.take_take]
        rw [show c.value ⊓ (cn + c.value - cn) = c.value by omega]
        exact hx ▸ rfl

theorem ti_fromBytes_append (t : TransactionInput) (h : t.WF) (rest : List Nat) :
    TransactionInput.fromBytes (t.toBytes ++ rest) = .ok (t, t.toBytes.length) := by
  obtain ⟨hop, hs, hseq⟩ := h
  have h36 : t.previous_output.toBytes.length = 36 := op_toBytes_length hop.1.1
  have hseq' : leDecode (leBytes 4 t.sequence) = t.sequence := by
    rw [leDecode_leBytes]
    exact Nat.mod_eq_of_lt (by norm_num at hseq ⊢; omega)
  rw [TransactionInput.toBytes, List.append_assoc, List.append_assoc]
  simp only [TransactionInput.fromBytes,
    op_fromBytes_append t.previous_output hop _, except_bind_ok]
  rw [show (36 : Nat) = t.previous_output.toBytes.length from h36.symm,
    List.drop_left' rfl]
  simp only [script_fromBytes_append t.script_sig hs (leBytes 4 t.sequence ++ rest),
    except_bind_ok]
  rw [if_neg (by
    simp only [List.length_append, leBytes_length]
    omega)]
  rw [show t.previous_output.toBytes.length + t.script_sig.toBytes.length =
      (t.previous_output.toBytes ++ t.script_sig.toBytes).length by
    simp [List.length_append]]
  rw [← List.append_assoc t.previous_output.toBytes, List.drop_left' rfl,
    List.take_left' (leBytes_length 4 t.sequence), hseq']
  have : (TransactionInput.new t.previous_output t.script_sig t.sequence) = t := rfl
  rw [this]
  simp [TransactionInput.toBytes, List.length_append, h36, leBytes_length]
  omega

theorem ti_fromBytes_ext {bs : List Nat} {x : TransactionInput} {n : Nat}
    (h : TransactionInput.fromBytes bs = .ok (x, n)) :
    n ≤ bs.length ∧
      ∀ ys, TransactionInput.fromBytes (bs.take n ++ ys) = .ok (x, n) := by
  cases hop : OutPoint.fromBytes bs with
  | error e =>
    rw [TransactionInput.fromBytes, hop, except_bind_error] at h
    exact Except.noConfusion h
  | ok p =>
    obtain ⟨o, cn1⟩ := p
    obtain ⟨hcn1, hext1⟩ := op_fromBytes_ext hop
    simp only [TransactionInput.fromBytes, hop, except_bind_ok] at h
    cases hsc : Script.fromBytes (bs.drop cn1) with
    | error e =>
      rw [hsc, except_bind_error] at h
      exact Except.noConfusion h
    | ok q =>
      obtain ⟨sc, cn2⟩ := q
      obtain ⟨hcn2, hext2⟩ := script_fromBytes_ext hsc
      rw [List.length_drop] at hcn2
      simp only [hsc, except_bind_ok] at h
      by_cases hlen : bs.length < cn1 + cn2 + 4
      · rw [if_pos hlen] at h
        exact Except.noConfusion h
      · rw [if_neg hlen] at h
        have h' := Except.ok.inj h
        rw [Prod.mk.injEq] at h'
        obtain ⟨hx, hn⟩ := h'
        subst hn
        refine ⟨by omega, fun ys => ?_⟩
        have hop2 : OutPoint.fromBytes (bs.take (cn1 + cn2 + 4) ++ ys) =
            .ok (o, cn1) := by
          rw [take_split bs (show cn1 ≤ cn1 + cn2 + 4 by omega), List.append_assoc]
          exact hext1 _
        simp only [TransactionInput.fromBytes, hop2, except_bind_ok]
        rw [drop_window bs ys (by omega) (by omega)]
        have hsc2 : Script.fromBytes
            ((bs.drop cn1).take (cn1 + cn2 + 4 - cn1) ++ ys) = .ok (sc, cn2) := by
          rw [take_split (bs.drop cn1)
            (show cn2 ≤ cn1 + cn2 + 4 - cn1 by omega), List.append_assoc]
          exact hext2 _
        simp only [hsc2, except_bind_ok]
        rw [if_neg (by
          simp only [List.length_append, List.length_take]
          omega)]
        rw [drop_window bs ys (by omega) (by omega),
          show cn1 + cn2 + 4 - (cn1 + cn2) = 4 by omega,
          List.take_append_of_le_length (by
            simp only [List.length_take, List.length_drop]
            omega),
          List.take_take, show (4 : Nat) ⊓ 4 = 4 by simp]
        exact hx ▸ rfl

theorem decodeInputs_eq_list (n : Nat) (bytes : List Nat) (offset : Nat) :
    BitcoinTransaction.decodeInputs bytes n offset =
      (decodeInputsList n (bytes.drop offset)).map (fun p => (p.1, offset + p.2)) := by
  induction n generalizing offset with
  | zero => simp [BitcoinTransaction.decodeInputs, decodeInputsList, Except.map]
  | succ n ih =>
    simp only [BitcoinTransaction.decodeInputs, decodeInputsList]
    cases hti : TransactionInput.fromBytes (bytes.drop offset) with
    | error e => simp [hti, except_bind_error, Except.map]
    | ok p =>
      obtain ⟨i, c⟩ := p
      simp only [hti, except_bind_ok]
      rw [List.drop_drop, ih (offset + c)]
      cases hrec : decodeInputsList n (bytes.drop (offset + c)) with
      | error e => simp [except_bind_error, Except.map]
      | ok q =>
        obtain ⟨is, c'⟩ := q
        simp [except_bind_ok, Except.map]
        omega

theorem decodeInputsList_append (inputs : List TransactionInput)
    (h : ∀ i ∈ inputs, i.WF) (rest : List Nat) :
    decodeInputsList inputs.length
        ((inputs.map TransactionInput.toBytes).flatten ++ rest) =
      .ok (inputs, ((inputs.map TransactionInput.toBytes).flatten).length) := by
  induction inputs generalizing rest with
  | nil => simp [decodeInputsList]
  | cons i is ih =>
    simp only [List.map_cons, List.flatten_cons, List.append_assoc,
      List.length_cons, List.length_append]
    simp only [decodeInputsList,
      ti_fromBytes_append i (h i (by simp)) _, except_bind_ok]
    rw [List.drop_left' rfl, ih (fun j hj => h j (by simp [hj])) rest]
    simp [except_bind_ok]

theorem decodeInputsList_ext {n : Nat} {bs : List Nat}
    {is : List TransactionInput} {c : Nat}
    (h : decodeInputsList n bs = .ok (is, c)) :
    c ≤ bs.length ∧ ∀ ys, decodeInputsList n (bs.take c ++ ys) = .ok (is, c) := by
  induction n generalizing bs is c with
  | zero =>
    simp only [decodeInputsList] at h
    have h' := Except.ok.inj h
    rw [Prod.mk.injEq] at h'
    obtain ⟨his, hc⟩ := h'
    subst his; subst hc
    exact ⟨by omega, fun ys => by simp [decodeInputsList]⟩
  | succ n ih =>
    cases hti : TransactionInput.fromBytes bs with
    | error e =>
      simp only [decodeInputsList, hti, except_bind_error] at h
      exact Except.noConfusion h
    | ok p =>
      obtain ⟨i, ci⟩ := p
      obtain ⟨hci, hexti⟩ := ti_fromBytes_ext hti
      simp only [decodeInputsList, hti, except_bind_ok] at h
      cases hrec : decodeInputsList n (bs.drop ci) with
      | error e =>
        rw [hrec, except_bind_error] at h
        exact Except.noConfusion h
      | ok q =>
        obtain ⟨is', c'⟩ := q
        obtain ⟨hc', hext'⟩ := ih hrec
        rw [List.length_drop] at hc'
        simp only [hrec, except_bind_ok] at h
        have h' := Except.ok.inj h
        rw [Prod.mk.injEq] at h'
        obtain ⟨his, hc⟩ := h'
        subst his; subst hc
        refine ⟨by omega, fun ys => ?_⟩
        have hti2 : TransactionInput.fromBytes (bs.take (ci + c') ++ ys) =
            .ok (i, ci) := by
          rw [take_split bs (show ci ≤ ci + c' by omega), List.append_assoc]
          exact hexti _
        simp only [decodeInputsList, hti2, except_bind_ok]
        rw [drop_window bs ys (by omega) (by omega), Nat.add_sub_cancel_left,
          hext' ys]
        simp [except_bind_ok]

theorem tx_fromBytes_append (tx : BitcoinTransaction) (h : tx.WF) (rest : List Nat) :
    BitcoinTransaction.fromBytes (tx.toBytes ++ rest) = .ok (tx, tx.toBytes.length) := by
  obtain ⟨hv, hn, hwf, hl⟩ := h
  replace hv : tx.version < 2 ^ 32 := hv
  replace hn : tx.inputs.length < 2 ^ 64 := hn
  replace hl : tx.lock_time < 2 ^ 32 := hl
  have hcbl := cs_toBytes_length_cases (CompactSize.new tx.inputs.length)
  have hcs := cs_fromBytes_append (CompactSize.new tx.inputs.length)
    (by simpa [CompactSize.new] using hn)
    ((tx.inputs.map TransactionInput.toBytes).flatten ++
      (leBytes 4 tx.lock_time ++ rest))
  have hdl := decodeInputsList_append tx.inputs hwf (leBytes 4 tx.lock_time ++ rest)
  have e1 : tx.toBytes ++ rest =
      leBytes 4 tx.version ++ ((CompactSize.new tx.inputs.length).toBytes ++
        ((tx.inputs.map TransactionInput.toBytes).flatten ++
          (leBytes 4 tx.lock_time ++ rest))) := by
    simp [BitcoinTransaction.toBytes, List.append_assoc]
  rw [e1, BitcoinTransaction.fromBytes]
  set A := leBytes 4 tx.version with hA
  set CB := (CompactSize.new tx.inputs.length).toBytes with hCB
  set J := (tx.inputs.map TransactionInput.toBytes).flatten with hJ
  set L := leBytes 4 tx.lock_time with hL
  have hAl : A.length = 4 := by rw [hA]; exact leBytes_length 4 _
  have hLl : L.length = 4 := by rw [hL]; exact leBytes_length 4 _
  have hver : leDecode A = tx.version := by
    rw [hA, leDecode_leBytes]
    exact Nat.mod_eq_of_lt (by norm_num at hv ⊢; omega)
  have hlock : leDecode L = tx.lock_time := by
    rw [hL, leDecode_leBytes]
    exact Nat.mod_eq_of_lt (by norm_num at hl ⊢; omega)
  rw [if_neg (by simp only [List.length_append, hAl, hLl]; omega)]
  rw [List.take_left' hAl, List.drop_left' hAl, hver]
  simp only [hcs, except_bind_ok]
  rw [decodeInputs_eq_list]
  have e2 : (A ++ (CB ++ (J ++ (L ++ rest)))).drop (CB.length + 4) =
      J ++ (L ++ rest) := by
    rw [show CB.length + 4 = 4 + CB.length by omega, ← List.drop_drop,
      List.drop_left' hAl, List.drop_left' rfl]
  have hval : (CompactSize.new tx.inputs.length).value = tx.inputs.length := rfl
  rw [e2, hval, hdl]
  simp only [Except.map, except_bind_ok]
  rw [if_neg (by simp only [List.length_append, hAl, hLl]; omega)]
  have e3 : (A ++ (CB ++ (J ++ (L ++ rest)))).drop (CB.length + 4 + J.length) =
      L ++ rest := by
    rw [show CB.length + 4 + J.length = 4 + CB.length + J.length by omega,
      ← List.drop_drop, ← List.drop_drop,
      List.drop_left' hAl, List.drop_left' rfl, List.drop_left' rfl]
  rw [e3, List.take_left' hLl, hlock]
  have hfin : tx.toBytes.length = CB.length + 4 + J.length + 4 := by
    simp only [BitcoinTransaction.toBytes, List.length_append, ← hCB, ← hJ,
      ← hA, ← hL, hAl, hLl]
    omega
  rw [hfin]
  rfl

theorem tx_fromBytes_eq_spec (bs : List Nat) :
    BitcoinTransaction.fromBytes bs = BitcoinTransaction.fromBytesSpec bs := by
  rw [BitcoinTransaction.fromBytes, BitcoinTransaction.fromBytesSpec]
  by_cases h8 : bs.length < 8
  · rw [if_pos h8, if_pos h8]
  · rw [if_neg h8, if_neg h8]
    cases hcs : CompactSize.fromBytes (bs.drop 4) with
    | error e => simp [hcs, except_bind_error]
    | ok p =>
      obtain ⟨cnt, c⟩ := p
      simp only [hcs, except_bind_ok]
      rw [decodeInputs_eq_list, show c + 4 = 4 + c by omega]
      cases hdl : decodeInputsList cnt.value (bs.drop (4 + c)) with
      | error e => simp [hdl, Except.map, except_bind_error]
      | ok q =>
        obtain ⟨is, ci⟩ := q
        simp only [hdl, Except.map, except_bind_ok]
        rfl

theorem tx_fromBytes_ext {bs : List Nat} {x : BitcoinTransaction} {n : Nat}
    (h : BitcoinTransaction.fromBytes bs = .ok (x, n)) :
    n ≤ bs.length ∧
      ∀ ys, BitcoinTransaction.fromBytes (bs.take n ++ ys) = .ok (x, n) := by
  rw [BitcoinTransaction.fromBytes] at h
  by_cases h8 : bs.length < 8
  · rw [if_pos h8] at h
    exact Except.noConfusion h
  · rw [if_neg h8] at h
    cases hcs : CompactSize.fromBytes (bs.drop 4) with
    | error e =>
      simp only [hcs, except_bind_error] at h
      exact Except.noConfusion h
    | ok p =>
      obtain ⟨cnt, c⟩ := p
      obtain ⟨hc, hextc⟩ := cs_fromBytes_ext hcs
      rw [List.length_drop] at hc
      simp only [hcs, except_bind_ok] at h
      rw [decodeInputs_eq_list] at h
      cases hdl : decodeInputsList cnt.value (bs.drop (c + 4)) with
      | error e =>
        rw [hdl] at h
        simp only [Except.map, except_bind_error] at h
        exact Except.noConfusion h
      | ok q =>
        obtain ⟨is, ci⟩ := q
        obtain ⟨hci, hextl⟩ := decodeInputsList_ext hdl
        rw [List.length_drop] at hci
        simp only [hdl, Except.map, except_bind_ok] at h
        by_cases hlen : bs.length < c + 4 + ci + 4
        · rw [if_pos hlen] at h
          exact Except.noConfusion h
        · rw [if_neg hlen] at h
          have h' := Except.ok.inj h
          rw [Prod.mk.injEq] at h'
          obtain ⟨hx, hn⟩ := h'
          subst hn
          refine ⟨by omega, fun ys => ?_⟩
          rw [BitcoinTransaction.fromBytes]
          rw [if_neg (by simp only [List.length_append, List.length_take]; omega)]
          rw [take_window bs ys (by omega) (by omega)]
          rw [drop_window bs ys (by omega) (by omega)]
          have hcs2 : CompactSize.fromBytes
              ((bs.drop 4).take (c + 4 + ci + 4 - 4) ++ ys) = .ok (cnt, c) := by
            rw [take_split (bs.drop 4) (show c ≤ c + 4 + ci + 4 - 4 by omega),
              List.append_assoc]
            exact hextc _
          simp only [hcs2, except_bind_ok]
          rw [decodeInputs_eq_list]
          rw [drop_window bs ys (by omega) (by omega)]
          have hdl2 : decodeInputsList cnt.value
              ((bs.drop (c + 4)).take (c + 4 + ci + 4 - (c + 4)) ++ ys) =
                .ok (is, ci) := by
            rw [take_split (bs.drop (c + 4))
              (show ci ≤ c + 4 + ci + 4 - (c + 4) by omega), List.append_assoc]
            exact hextl _
          simp only [hdl2, Except.map, except_bind_ok]
          rw [if_neg (by simp only [List.length_append, List.length_take]; omega)]
          rw [drop_window bs ys (by omega) (by omega),
            show c + 4 + ci + 4 - (c + 4 + ci) = 4 by omega,
            List.take_append_of_le_length (by
              simp only [List.length_take, List.length_drop]
              omega),
            List.take_take, show (4 : Nat) ⊓ 4 = 4 by simp]
          exact hx ▸ rfl

theorem hexDigitVal_hexDigit {d : Nat} (h : d < 16) :
    hexDigitVal (hexDigit d) = some d := by
  interval_cases d <;> decide

theorem hexDigit_isLower {d : Nat} (h : d < 16) :
    isLowerHexDigit (hexDigit d) = true := by
  interval_cases d <;> decide

theorem hexDecodeChars_hexEncodeChars {bs : List Nat} (h : ∀ b ∈ bs, b < 256) :
    hexDecodeChars (hexEncodeChars bs) = some bs := by
  induction bs with
  | nil => rfl
  | cons b rest ih =>
    have hb : b < 256 := h b (by simp)
    simp only [hexEncodeChars, hexDecodeChars,
      hexDigitVal_hexDigit (show b / 16 < 16 by omega),
      hexDigitVal_hexDigit (show b % 16 < 16 by omega),
      ih (fun x hx => h x (by simp [hx])), Option.bind_some]
    simp [show 16 * (b / 16) + b % 16 = b by omega]

theorem hexEncodeChars_length (bs : List Nat) :
    (hexEncodeChars bs).length = 2 * bs.length := by
  induction bs with
  | nil => rfl
  | cons b rest ih => simp [hexEncodeChars, ih]; omega

theorem hexEncodeChars_lower {bs : List Nat} (h : ∀ b ∈ bs, b < 256) :
    ∀ c ∈ hexEncodeChars bs, isLowerHexDigit c = true := by
  induction bs with
  | nil => simp [hexEncodeChars]
  | cons b rest ih =>
    have hb : b < 256 := h b (by simp)
    intro c hc
    simp only [hexEncodeChars, List.mem_cons] at hc
    rcases hc with rfl | rfl | hc
    · exact hexDigit_isLower (by omega)
    · exact hexDigit_isLower (by omega)
    · exact ih (fun x hx => h x (by simp [hx])) c hc

theorem leDecode_window (bs : List Nat) (i : Nat) (h : i + 4 ≤ bs.length) :
    leDecode ((bs.drop i).take 4) =
      bs.getD i 0 + 256 * bs.getD (i + 1) 0 + 65536 * bs.getD (i + 2) 0 +
        16777216 * bs.getD (i + 3) 0 := by
  have e : (bs.drop i).take 4 =
      [bs.getD i 0, bs.getD (i + 1) 0, bs.getD (i + 2) 0, bs.getD (i + 3) 0] := by
    apply List.ext_getElem
    · simp [List.length_take, List.length_drop]; omega
    · intro k hk1 hk2
      simp only [List.length_take, List.length_drop] at hk1
      have hk : k < 4 := by omega
      simp only [List.getElem_take, List.getElem_drop]
      have h0 : i < bs.length := by omega
      have h1 : i + 1 < bs.length := by omega
      have h2 : i + 2 < bs.length := by omega
      have h3 : i + 3 < bs.length := by omega
      interval_cases k <;>
        simp [List.getD_eq_getElem bs 0 h0, List.getD_eq_getElem bs 0 h1,
          List.getD_eq_getElem bs 0 h2, List.getD_eq_getElem bs 0 h3,
          List.getElem?_eq_getElem h0, List.getElem?_eq_getElem h1,
          List.getElem?_eq_getElem h2, List.getElem?_eq_getElem h3]
  rw [e]
  simp [leDecode]
  ring

/-- C1: the specification says `TransactionInput::from_bytes` validates that
at least 4 bytes remain for the sequence field and returns
`InsufficientBytes` otherwise, never panicking.  The source has no such
check: it slices `bytes[consumed + consumed_script..consumed +
consumed_script + 4]` unconditionally, so the 41-byte encoding of
`sampleInput` truncated by one byte makes the call panic (modelled as
`Fault.outOfBounds`) instead of returning `InsufficientBytes`. -/
theorem c1_truncated_sequence_panics :
    TransactionInput.fromBytes truncatedInputBytes = .error .outOfBounds ∧
      truncatedInputBytes = sampleInput.toBytes.take 40 ∧
      sampleInput.toBytes.length = 41 ∧
      Fault.outOfBounds ≠ .err .InsufficientBytes := by
  refine ⟨by decide, rfl, by decide, by decide⟩

/-- C2: for every entity type, decoding the encoding of a well-formed value
succeeds and returns exactly the value together with the encoding's length. -/
theorem c2_roundtrip :
    (∀ c : CompactSize, c.value < 2 ^ 64 →
      CompactSize.fromBytes c.toBytes = .ok (c, c.toBytes.length)) ∧
    (∀ o : OutPoint, o.WF →
      OutPoint.fromBytes o.toBytes = .ok (o, o.toBytes.length)) ∧
    (∀ s : Script, s.WF →
      Script.fromBytes s.toBytes = .ok (s, s.toBytes.length)) ∧
    (∀ t : TransactionInput, t.WF →
      TransactionInput.fromBytes t.toBytes = .ok (t, t.toBytes.length)) ∧
    (∀ tx : BitcoinTransaction, tx.WF →
      BitcoinTransaction.fromBytes tx.toBytes = .ok (tx, tx.toBytes.length)) := by
  refine ⟨fun c h => ?_, fun o h => ?_, fun s h => ?_, fun t h => ?_,
    fun tx h => ?_⟩
  · simpa using cs_fromBytes_append c h []
  · rw [op_toBytes_length h.1.1]
    simpa using op_fromBytes_append o h []
  · simpa using script_fromBytes_append s h []
  · simpa using ti_fromBytes_append t h []
  · simpa using tx_fromBytes_append tx h []

/-- Witness for C2 at the CompactSize boundary values 0, 0xFC, 0xFD, 0xFFFF,
0x10000, 0xFFFFFFFF, 0x100000000 and u64::MAX, and at concrete values of the
four composite types (the specification's second concrete scenario). -/
theorem c2_roundtrip_witness :
    CompactSize.fromBytes (CompactSize.mk 0).toBytes =
      .ok (CompactSize.mk 0, (CompactSize.mk 0).toBytes.length) ∧
    CompactSize.fromBytes (CompactSize.mk 0xFC).toBytes =
      .ok (CompactSize.mk 0xFC, (CompactSize.mk 0xFC).toBytes.length) ∧
    CompactSize.fromBytes (CompactSize.mk 0xFD).toBytes =
      .ok (CompactSize.mk 0xFD, (CompactSize.mk 0xFD).toBytes.length) ∧
    CompactSize.fromBytes (CompactSize.mk 0xFFFF).toBytes =
      .ok (CompactSize.mk 0xFFFF, (CompactSize.mk 0xFFFF).toBytes.length) ∧
    CompactSize.fromBytes (CompactSize.mk 0x10000).toBytes =
      .ok (CompactSize.mk 0x10000, (CompactSize.mk 0x10000).toBytes.length) ∧
    CompactSize.fromBytes (CompactSize.mk 0xFFFFFFFF).toBytes =
      .ok (CompactSize.mk 0xFFFFFFFF, (CompactSize.mk 0xFFFFFFFF).toBytes.length) ∧
    CompactSize.fromBytes (CompactSize.mk 0x100000000).toBytes =
      .ok (CompactSize.mk 0x100000000, (CompactSize.mk 0x100000000).toBytes.length) ∧
    CompactSize.fromBytes (CompactSize.mk 0xFFFFFFFFFFFFFFFF).toBytes =
      .ok (CompactSize.mk 0xFFFFFFFFFFFFFFFF,
        (CompactSize.mk 0xFFFFFFFFFFFFFFFF).toBytes.length) ∧
    OutPoint.fromBytes (OutPoint.mk ⟨List.replicate 32 0⟩ 0).toBytes =
      .ok (OutPoint.mk ⟨List.replicate 32 0⟩ 0,
        (OutPoint.mk ⟨List.replicate 32 0⟩ 0).toBytes.length) ∧
    Script.fromBytes (Script.mk [1, 2, 3]).toBytes =
      .ok (Script.mk [1, 2, 3], (Script.mk [1, 2, 3]).toBytes.length) ∧
    TransactionInput.fromBytes sampleInput.toBytes =
      .ok (sampleInput, sampleInput.toBytes.length) ∧
    BitcoinTransaction.fromBytes
        (BitcoinTransaction.mk 2 [sampleInput] 500000).toBytes =
      .ok (BitcoinTransaction.mk 2 [sampleInput] 500000,
        (BitcoinTransaction.mk 2 [sampleInput] 500000).toBytes.length) :=
  ⟨c2_roundtrip.1 _ (by decide), c2_roundtrip.1 _ (by decide),
   c2_roundtrip.1 _ (by decide), c2_roundtrip.1 _ (by decide),
   c2_roundtrip.1 _ (by decide), c2_roundtrip.1 _ (by decide),
   c2_roundtrip.1 _ (by decide), c2_roundtrip.1 _ (by decide),
   c2_roundtrip.2.1 _ (by decide), c2_roundtrip.2.2.1 _ (by decide),
   c2_roundtrip.2.2.2.1 _ (by decide), c2_roundtrip.2.2.2.2 _ (by decide)⟩

/-- C3: `CompactSize::to_bytes` always emits the minimal self-describing
prefix for the value's magnitude, with the value bytes little-endian. -/
theorem c3_minimal_encoding (v : Nat) (_hword : v < 2 ^ 64) :
    (v ≤ 0xFC → (CompactSize.mk v).toBytes = [v]) ∧
    (0xFD ≤ v → v ≤ 0xFFFF →
      (CompactSize.mk v).toBytes = [0xFD, v % 256, v / 256 % 256]) ∧
    (0x10000 ≤ v → v ≤ 0xFFFFFFFF →
      (CompactSize.mk v).toBytes =
        [0xFE, v % 256, v / 256 % 256, v / 65536 % 256, v / 16777216 % 256]) ∧
    (0x100000000 ≤ v →
      (CompactSize.mk v).toBytes =
        [0xFF, v % 256, v / 256 % 256, v / 65536 % 256, v / 16777216 % 256,
          v / 4294967296 % 256, v / 1099511627776 % 256,
          v / 281474976710656 % 256, v / 72057594037927936 % 256]) :=
  ⟨fun h => cs_toBytes_case1 h, fun h1 h2 => cs_toBytes_case2 h1 h2,
   fun h1 h2 => cs_toBytes_case3 h1 h2, fun h1 => cs_toBytes_case4 h1⟩

/-- Witness for C3: one value in each of the four magnitude ranges. -/
theorem c3_minimal_encoding_witness :
    (CompactSize.mk 0xAB).toBytes = [0xAB] ∧
    (CompactSize.mk 0xABCD).toBytes = [0xFD, 0xCD, 0xAB] ∧
    (CompactSize.mk 0xDEADBEEF).toBytes = [0xFE, 0xEF, 0xBE, 0xAD, 0xDE] ∧
    (CompactSize.mk 0x0102030405060708).toBytes =
      [0xFF, 8, 7, 6, 5, 4, 3, 2, 1] :=
  ⟨(c3_minimal_encoding 0xAB (by decide)).1 (by decide),
   (c3_minimal_encoding 0xABCD (by decide)).2.1 (by decide) (by decide),
   (c3_minimal_encoding 0xDEADBEEF (by decide)).2.2.1 (by decide) (by decide),
   (c3_minimal_encoding 0x0102030405060708 (by decide)).2.2.2 (by decide)⟩

/-- C4: `CompactSize::from_bytes` selects a width in {0, 2, 4, 8} from the
first byte, fails with `InsufficientBytes` exactly when fewer than
`1 + width` bytes are present, and otherwise returns the little-endian value
of the `width` following bytes (the first byte itself when the width is 0)
with `1 + width` consumed — without ever requiring minimality, as the
decoding of `FD 05 00` to value 5 shows. -/
theorem c4_cs_decode (b0 : Nat) (rest : List Nat) (_hbyte : b0 < 256) :
    ((b0 :: rest).length < 1 + csWidth b0 →
      CompactSize.fromBytes (b0 :: rest) = .error (.err .InsufficientBytes)) ∧
    (1 + csWidth b0 ≤ (b0 :: rest).length →
      CompactSize.fromBytes (b0 :: rest) =
        .ok (CompactSize.mk (if csWidth b0 = 0 then b0
          else leDecode (rest.take (csWidth b0))), 1 + csWidth b0)) ∧
    CompactSize.fromBytes [0xFD, 0x05, 0x00] = .ok (⟨5⟩, 3) := by
  by_cases h1 : b0 ≤ 0xFC
  · have hw : csWidth b0 = 0 := by simp [csWidth, h1]
    refine ⟨fun hlt => ?_, fun _ => ?_, by decide⟩
    · rw [hw] at hlt
      simp at hlt
    · rw [hw]
      simp [CompactSize.fromBytes, CompactSize.new, h1]
  · by_cases h2 : b0 = 0xFD
    · have hw : csWidth b0 = 2 := by simp [csWidth, h1, h2]
      rw [hw]
      refine ⟨fun hlt => ?_, fun hge => ?_, by decide⟩
      · match rest with
        | [] => simp [CompactSize.fromBytes, h1, h2]
        | [_] => simp [CompactSize.fromBytes, h1, h2]
        | _ :: _ :: _ => simp at hlt; omega
      · match rest with
        | [] => simp at hge
        | [_] => simp at hge
        | a :: b :: t => simp [CompactSize.fromBytes, CompactSize.new, h1, h2]
    · by_cases h3 : b0 = 0xFE
      · have hw : csWidth b0 = 4 := by simp [csWidth, h1, h2, h3]
        rw [hw]
        refine ⟨fun hlt => ?_, fun hge => ?_, by decide⟩
        · match rest with
          | [] => simp [CompactSize.fromBytes, h1, h2, h3]
          | [_] => simp [CompactSize.fromBytes, h1, h2, h3]
          | [_, _] => simp [CompactSize.fromBytes, h1, h2, h3]
          | [_, _, _] => simp [CompactSize.fromBytes, h1, h2, h3]
          | _ :: _ :: _ :: _ :: _ => simp at hlt; omega
        · match rest with
          | [] => simp at hge
          | [_] => simp at hge
          | [_, _] => simp at hge
          | [_, _, _] => simp at hge
          | a :: b :: c :: d :: t =>
            simp [CompactSize.fromBytes, CompactSize.new, h1, h2, h3]
      · have hw : csWidth b0 = 8 := by simp [csWidth, h1, h2, h3]
        rw [hw]
        refine ⟨fun hlt => ?_, fun hge => ?_, by decide⟩
        · match rest with
          | [] => simp [CompactSize.fromBytes, h1, h2, h3]
          | [_] => simp [CompactSize.fromBytes, h1, h2, h3]
          | [_, _] => simp [CompactSize.fromBytes, h1, h2, h3]
          | [_, _, _] => simp [CompactSize.fromBytes, h1, h2, h3]
          | [_, _, _, _] => simp [CompactSize.fromBytes, h1, h2, h3]
          | [_, _, _, _, _] => simp [CompactSize.fromBytes, h1, h2, h3]
          | [_, _, _, _, _, _] => simp [CompactSize.fromBytes, h1, h2, h3]
          | [_, _, _, _, _, _, _] => simp [CompactSize.fromBytes, h1, h2, h3]
          | _ :: _ :: _ :: _ :: _ :: _ :: _ :: _ :: _ => simp at hlt; omega
        · match rest with
          | [] => simp at hge
          | [_] => simp at hge
          | [_, _] => simp at hge
          | [_, _, _] => simp at hge
          | [_, _, _, _] => simp at hge
          | [_, _, _, _, _] => simp at hge
          | [_, _, _, _, _, _] => simp at hge
          | [_, _, _, _, _, _, _] => simp at hge
          | a :: b :: c :: d :: e :: f :: g :: i :: t =>
            simp [CompactSize.fromBytes, CompactSize.new, h1, h2, h3]

/-- Witness for C4 at the wider-than-necessary encoding `FD 05 00`. -/
theorem c4_cs_decode_witness :
    CompactSize.fromBytes [0xFD, 0x05, 0x00] =
      .ok (CompactSize.mk 5, 3) :=
  (c4_cs_decode 0xFD [0x05, 0x00] (by decide)).2.1 (by decide)

/-- C5: `BitcoinTransaction::from_bytes` equals the specification-style
decoder: an `InsufficientBytes` failure below 8 bytes, the little-endian
version from bytes 0..4, a CompactSize input count at offset 4, exactly
`input_count.value` sequentially decoded inputs each advancing the offset by
its consumed length with child failures propagated, a 4-byte check for the
little-endian lock time, and the total consumed count. -/
theorem c5_tx_decode_spec (bs : List Nat) :
    BitcoinTransaction.fromBytes bs = BitcoinTransaction.fromBytesSpec bs :=
  tx_fromBytes_eq_spec bs

/-- C6: `OutPoint::to_bytes` is exactly the 32 txid bytes followed by the
4-byte little-endian vout (36 bytes total); `OutPoint::from_bytes` fails with
`InsufficientBytes` on every buffer shorter than 36 bytes, and on every
buffer of at least 36 bytes it succeeds regardless of content, taking bytes
0..32 as the txid and bytes 32..36 as the little-endian vout, consuming
exactly 36 bytes. -/
theorem c6_outpoint (o : OutPoint) (bs : List Nat) (h : o.WF) :
    (o.toBytes = o.txid.bytes ++
        [o.vout % 256, o.vout / 256 % 256, o.vout / 65536 % 256,
          o.vout / 16777216 % 256] ∧
      o.toBytes.length = 36) ∧
    (bs.length < 36 →
      OutPoint.fromBytes bs = .error (.err .InsufficientBytes)) ∧
    (36 ≤ bs.length →
      OutPoint.fromBytes bs =
        .ok (⟨⟨bs.take 32⟩, bs.getD 32 0 + 256 * bs.getD 33 0 +
          65536 * bs.getD 34 0 + 16777216 * bs.getD 35 0⟩, 36)) := by
  refine ⟨⟨?_, op_toBytes_length h.1.1⟩, fun hlt => ?_, fun hge => ?_⟩
  · rw [OutPoint.toBytes]
    norm_num [leBytes, Nat.div_div_eq_div_mul]
  · rw [OutPoint.fromBytes, if_pos hlt]
  · rw [OutPoint.fromBytes, if_neg (by omega),
      leDecode_window bs 32 (by omega)]

/-- Witness for C6: the encoding length of a concrete outpoint, a 3-byte
buffer rejection, and a successful 36-byte decode. -/
theorem c6_outpoint_witness :
    (OutPoint.toBytes ⟨⟨List.replicate 32 0⟩, 0xDEADBEEF⟩).length = 36 ∧
    OutPoint.fromBytes [1, 2, 3] = .error (.err .InsufficientBytes) ∧
    OutPoint.fromBytes (List.replicate 32 9 ++ [4, 3, 2, 1]) =
      .ok (⟨⟨List.replicate 32 9⟩, 0x01020304⟩, 36) :=
  ⟨(c6_outpoint ⟨⟨List.replicate 32 0⟩, 0xDEADBEEF⟩ [] (by decide)).1.2,
   (c6_outpoint ⟨⟨List.replicate 32 0⟩, 0xDEADBEEF⟩ [1, 2, 3]
     (by decide)).2.1 (by decide),
   (c6_outpoint ⟨⟨List.replicate 32 0⟩, 0xDEADBEEF⟩
     (List.replicate 32 9 ++ [4, 3, 2, 1]) (by decide)).2.2 (by decide)⟩

/-- C7: for every entity type, a successful decode consumes at most the
buffer, re-decoding just the consumed prefix gives the identical result, and
a buffer that is longer than its consumed prefix is consumed strictly
short of its length. -/
theorem c7_prefix_consistency (bs : List Nat) :
    (∀ c n, CompactSize.fromBytes bs = .ok (c, n) →
      n ≤ bs.length ∧ CompactSize.fromBytes (bs.take n) = .ok (c, n) ∧
        (bs ≠ bs.take n → n < bs.length)) ∧
    (∀ o n, OutPoint.fromBytes bs = .ok (o, n) →
      n ≤ bs.length ∧ OutPoint.fromBytes (bs.take n) = .ok (o, n) ∧
        (bs ≠ bs.take n → n < bs.length)) ∧
    (∀ s n, Script.fromBytes bs = .ok (s, n) →
      n ≤ bs.length ∧ Script.fromBytes (bs.take n) = .ok (s, n) ∧
        (bs ≠ bs.take n → n < bs.length)) ∧
    (∀ t n, TransactionInput.fromBytes bs = .ok (t, n) →
      n ≤ bs.length ∧ TransactionInput.fromBytes (bs.take n) = .ok (t, n) ∧
        (bs ≠ bs.take n → n < bs.length)) ∧
    (∀ tx n, BitcoinTransaction.fromBytes bs = .ok (tx, n) →
      n ≤ bs.length ∧ BitcoinTransaction.fromBytes (bs.take n) = .ok (tx, n) ∧
        (bs ≠ bs.take n → n < bs.length)) := by
  have hstrict : ∀ n, n ≤ bs.length → (bs ≠ bs.take n → n < bs.length) := by
    intro n hle hne
    rcases Nat.lt_or_ge n bs.length with hlt | hge
    · exact hlt
    · exact absurd (List.take_of_length_le hge).symm hne
  refine ⟨fun c n h => ?_, fun o n h => ?_, fun s n h => ?_,
    fun t n h => ?_, fun tx n h => ?_⟩
  · obtain ⟨h1, h2⟩ := cs_fromBytes_ext h
    exact ⟨h1, by simpa using h2 [], hstrict n h1⟩
  · obtain ⟨h1, h2⟩ := op_fromBytes_ext h
    exact ⟨h1, by simpa using h2 [], hstrict n h1⟩
  · obtain ⟨h1, h2⟩ := script_fromBytes_ext h
    exact ⟨h1, by simpa using h2 [], hstrict n h1⟩
  · obtain ⟨h1, h2⟩ := ti_fromBytes_ext h
    exact ⟨h1, by simpa using h2 [], hstrict n h1⟩
  · obtain ⟨h1, h2⟩ := tx_fromBytes_ext h
    exact ⟨h1, by simpa using h2 [], hstrict n h1⟩

/-- Witness for C7: a CompactSize buffer and a whole-transaction buffer,
each carrying one trailing byte beyond the valid encoding. -/
theorem c7_prefix_consistency_witness :
    ((3 : Nat) ≤ 4 ∧
      CompactSize.fromBytes [0xFD, 5, 0] = .ok (CompactSize.mk 5, 3) ∧
      ([0xFD, 5, 0, 99] ≠ [0xFD, 5, 0] → (3 : Nat) < 4)) ∧
    ((9 : Nat) ≤ 10 ∧
      BitcoinTransaction.fromBytes [1, 0, 0, 0, 0, 0, 0, 0, 0] =
        .ok (BitcoinTransaction.mk 1 [] 0, 9) ∧
      ([1, 0, 0, 0, 0, 0, 0, 0, 0, 7] ≠ [1, 0, 0, 0, 0, 0, 0, 0, 0] →
        (9 : Nat) < 10)) :=
  ⟨(c7_prefix_consistency [0xFD, 5, 0, 99]).1 (CompactSize.mk 5) 3 (by decide),
   (c7_prefix_consistency [1, 0, 0, 0, 0, 0, 0, 0, 0, 7]).2.2.2.2
     (BitcoinTransaction.mk 1 [] 0) 9 (by decide)⟩

/-- C8: every composite decoder forwards a child failure unchanged — the
`Script` decoder forwards a CompactSize failure, the `TransactionInput`
decoder forwards OutPoint and Script failures, the transaction decoder
forwards input-count and input-loop failures, and the input loop forwards a
failing input's error — and, the result being a single `Except` value, no
partially decoded structure accompanies any failure. -/
theorem c8_error_propagation (bs : List Nat) (e : Fault) :
    (CompactSize.fromBytes bs = .error e → Script.fromBytes bs = .error e) ∧
    (OutPoint.fromBytes bs = .error e →
      TransactionInput.fromBytes bs = .error e) ∧
    (∀ o c, OutPoint.fromBytes bs = .ok (o, c) →
      Script.fromBytes (bs.drop c) = .error e →
      TransactionInput.fromBytes bs = .error e) ∧
    (8 ≤ bs.length → CompactSize.fromBytes (bs.drop 4) = .error e →
      BitcoinTransaction.fromBytes bs = .error e) ∧
    (∀ cnt c, 8 ≤ bs.length → CompactSize.fromBytes (bs.drop 4) = .ok (cnt, c) →
      BitcoinTransaction.decodeInputs bs cnt.value (c + 4) = .error e →
      BitcoinTransaction.fromBytes bs = .error e) ∧
    (∀ n total, TransactionInput.fromBytes (bs.drop total) = .error e →
      BitcoinTransaction.decodeInputs bs (n + 1) total = .error e) := by
  refine ⟨fun h => ?_, fun h => ?_, fun o c h1 h2 => ?_, fun h8 h => ?_,
    fun cnt c h8 h1 h2 => ?_, fun n total h => ?_⟩
  · simp only [Script.fromBytes, h, except_bind_error]
  · simp only [TransactionInput.fromBytes, h, except_bind_error]
  · simp only [TransactionInput.fromBytes, h1, except_bind_ok, h2,
      except_bind_error]
  · rw [BitcoinTransaction.fromBytes, if_neg (by omega)]
    simp only [h, except_bind_error]
  · rw [BitcoinTransaction.fromBytes, if_neg (by omega)]
    simp only [h1, except_bind_ok, h2, except_bind_error]
  · simp only [BitcoinTransaction.decodeInputs, h, except_bind_error]

/-- Witness for C8: concrete child failures propagated by each composite. -/
theorem c8_error_propagation_witness :
    Script.fromBytes [0xFD, 9] = .error (.err .InsufficientBytes) ∧
    TransactionInput.fromBytes [] = .error (.err .InsufficientBytes) ∧
    TransactionInput.fromBytes (List.replicate 36 0 ++ [0xFD]) =
      .error (.err .InsufficientBytes) ∧
    BitcoinTransaction.fromBytes [0, 0, 0, 0, 0xFE, 0, 0, 0] =
      .error (.err .InsufficientBytes) ∧
    BitcoinTransaction.fromBytes [0, 0, 0, 0, 1, 0, 0, 0] =
      .error (.err .InsufficientBytes) ∧
    BitcoinTransaction.decodeInputs [] 1 0 =
      .error (.err .InsufficientBytes) :=
  ⟨(c8_error_propagation [0xFD, 9] _).1 (by decide),
   (c8_error_propagation [] _).2.1 (by decide),
   (c8_error_propagation (List.replicate 36 0 ++ [0xFD]) _).2.2.1
     ⟨⟨List.replicate 32 0⟩, 0⟩ 36 (by decide) (by decide),
   (c8_error_propagation [0, 0, 0, 0, 0xFE, 0, 0, 0] _).2.2.2.1
     (by decide) (by decide),
   (c8_error_propagation [0, 0, 0, 0, 1, 0, 0, 0] _).2.2.2.2.1
     (CompactSize.mk 1) 1 (by decide) (by decide) (by decide),
   (c8_error_propagation [] _).2.2.2.2.2 0 0 (by decide)⟩

/-- C9: the claim says every wire decoder either succeeds or returns
`InsufficientBytes`.  The source violates it: a transaction whose single
input is cut inside its sequence field makes
`BitcoinTransaction::from_bytes` panic through the unchecked slice in
`TransactionInput::from_bytes` (modelled as `Fault.outOfBounds`, neither a
success nor a returned `BitcoinError`), and a 9-byte buffer declaring a
near-`u64::MAX` script length makes `Script::from_bytes` panic on the
overflowing `consumed + length.value as usize`. -/
theorem c9_decoders_can_panic :
    BitcoinTransaction.fromBytes truncatedTxBytes = .error .outOfBounds ∧
      truncatedTxBytes.length = 45 ∧
      Script.fromBytes [0xFF, 0xFF, 0xFF, 0xFF, 0xFF, 0xFF, 0xFF, 0xFF, 0xFF] =
        .error .outOfBounds ∧
      Fault.outOfBounds ≠ .err .InsufficientBytes ∧
      Fault.outOfBounds ≠ .err .InvalidFormat := by
  refine ⟨by decide, by decide, by decide, by decide, by decide⟩

/-- C10: serializing a `Txid` yields the 64-character lowercase hex string of
its 32 bytes (hex-decoding it recovers exactly those bytes), and
deserializing rejects every string whose hex-decoded byte length is not 32
while accepting every string that hex-decodes to exactly 32 bytes. -/
theorem c10_txid_hex (t : Txid) (s : String) (ht : t.WF) :
    (hexDecode (Txid.serializeHex t) = some t.bytes ∧
      (Txid.serializeHex t).data.length = 64 ∧
      ∀ c ∈ (Txid.serializeHex t).data, isLowerHexDigit c = true) ∧
    (∀ bs, hexDecode s = some bs →
      (bs.length ≠ 32 → Txid.deserializeHex s = .error .invalidLength) ∧
      (bs.length = 32 → Txid.deserializeHex s = .ok ⟨bs⟩)) := by
  obtain ⟨hlen, hb⟩ := ht
  refine ⟨⟨?_, ?_, ?_⟩, fun bs hdec => ⟨fun hne => ?_, fun he => ?_⟩⟩
  · rw [Txid.serializeHex, hexEncode, hexDecode]
    exact hexDecodeChars_hexEncodeChars hb
  · rw [Txid.serializeHex, hexEncode]
    show (hexEncodeChars t.bytes).length = 64
    rw [hexEncodeChars_length, hlen]
  · intro c hc
    exact hexEncodeChars_lower hb c hc
  · rw [Txid.deserializeHex, hdec]
    simp [hne]
  · rw [Txid.deserializeHex, hdec]
    simp [he]

/-- Witness for C10: the all-zero txid round-trips through its 64-character
hex form, a 2-character string is rejected for length, and the 64-zero
string deserializes successfully. -/
theorem c10_txid_hex_witness :
    hexDecode (Txid.serializeHex ⟨List.replicate 32 0⟩) =
      some (List.replicate 32 0) ∧
    Txid.deserializeHex "ab" = .error .invalidLength ∧
    Txid.deserializeHex
        "0000000000000000000000000000000000000000000000000000000000000000" =
      .ok ⟨List.replicate 32 0⟩ :=
  ⟨((c10_txid_hex ⟨List.replicate 32 0⟩ "" (by decide)).1).1,
   ((c10_txid_hex ⟨List.replicate 32 0⟩ "ab" (by decide)).2 [0xAB]
     (by decide)).1 (by decide),
   ((c10_txid_hex ⟨List.replicate 32 0⟩
       "0000000000000000000000000000000000000000000000000000000000000000"
       (by decide)).2 (List.replicate 32 0) (by decide)).2 (by decide)⟩

end BtcCodec
